import Mathlib

/-! Verification of spec claims about the SyConn object-extraction core.

Shallow embedding of the object-extraction core of the SyConn repository:

* `syconn/extraction/block_processing.py` — `kernel`, `process_block`,
  `process_block_nonzero`;
* `syconn_deprecated/processing/objectextraction.py` — `make_merge_list`,
  the max-label prefix sum and result collection inside
  `from_probabilities_to_objects`, the "auto" overlap computation inside
  `gauss_threshold_connected_components`, and the threshold rescaling;
* `syconn/proc/ssd_proc.py` — the background-ratio correction inside
  `_apply_mapping_decisions_thread`.

3-D arrays are embedded as functions `ℕ → ℕ → ℕ → ℕ` together with explicit
shape triples; windows are flattened to lists (the kernel only consumes the
multiset of window values).  Machine floats of the source become `ℚ`:
the claims settled here are about control flow and exact integer keys, not
float rounding.  Fallible operations (division) return `Option`.
-/

namespace SyConn

/-! Embedding of `kernel` (block_processing.py, lines 25–39).

```python
def kernel(chunk, center_id):
    unique_ids, counts = np.unique(chunk, return_counts=True)
    counts[unique_ids == 0] = -1
    counts[unique_ids == center_id] = -1
    if np.max(counts) > 0:
        partner_id = unique_ids[np.argmax(counts)]
        if center_id > partner_id:
            return (partner_id << 32) + center_id
        else:
            return (center_id << 32) + partner_id
    else:
        return 0
```

`np.unique` returns the distinct values in ascending order with their
multiplicities; `np.argmax` returns the first index attaining the maximum.
`np.max` of an empty array raises in numpy; the embedding returns 0 there and
all theorems about `kernel` assume a nonempty window. -/

/-- Distinct values of a list in ascending order, as `np.unique` returns them. -/
def uniqueIds (w : List ℕ) : List ℕ :=
  List.insertionSort (· ≤ ·) w.dedup

/-- The count array after the two masking assignments: background id 0 and the
center id get count `-1`, every other id keeps its multiplicity in the window. -/
def maskedCount (w : List ℕ) (center id : ℕ) : ℤ :=
  if id = 0 ∨ id = center then -1 else (w.count id : ℤ)

/-- Index of the first occurrence of the maximum, as `np.argmax` computes it
(0 on `[]`). -/
def argmaxFirst : List ℤ → ℕ
  | [] => 0
  | x :: xs =>
    match xs.max? with
    | none => 0
    | some m => if m ≤ x then 0 else argmaxFirst xs + 1

/-- The `kernel` function itself: the window is passed as the flattened
list of its values. -/
def kernel (w : List ℕ) (center : ℕ) : ℕ :=
  let ids := uniqueIds w
  let counts := ids.map (maskedCount w center)
  match counts.max? with
  | none => 0
  | some m =>
    if 0 < m then
      let partner := ids.getD (argmaxFirst counts) 0
      if partner < center then partner * 2 ^ 32 + center
      else center * 2 ^ 32 + partner
    else 0

example : kernel [0, 5, 7, 7, 3] 5 = 5 * 2 ^ 32 + 7 := by decide
example : kernel [0, 5, 5, 0] 5 = 0 := by decide
example : kernel [3, 5, 7, 3, 7] 5 = 3 * 2 ^ 32 + 5 := by decide

/-! Embedding of `process_block` and `process_block_nonzero`
(block_processing.py, 42–74).

```python
def process_block(edges, arr, stencil=(7, 7, 3)):
    stencil = np.array(stencil, dtype=np.int)
    assert np.sum(stencil % 2) == 3
    out = np.zeros_like(arr, dtype=np.uint64)
    offset = stencil / 2
    for x in range(offset[0], arr.shape[0] - offset[0]):
        for y in range(offset[1], arr.shape[1] - offset[1]):
            for z in range(offset[2], arr.shape[2] - offset[2]):
                if edges[x, y, z] == 0:
                    continue
                center_id = arr[x, y, z]
                chunk = arr[x - offset[0]: x + offset[0] + 1,
                        y - offset[1]: y + offset[1],
                        z - offset[2]: z + offset[2]]
                out[x, y, z] = kernel(chunk, center_id)
    return out

def process_block_nonzero(edges, arr, stencil=(7, 7, 3)):
    ...
    out = np.zeros(arr_shape - stencil + 1, dtype=np.uint64)
    offset = stencil // 2 # int division!
    nze = np.nonzero(edges[offset[0]: -offset[0], offset[1]: -offset[1],
                           offset[2]: -offset[2]])
    for x, y, z in zip(nze[0], nze[1], nze[2]):
        center_id = arr[x + offset[0], y + offset[1], z + offset[2]]
        chunk = arr[x: x + stencil[0], y: y + stencil[1], z: z + stencil[2]]
        out[x, y, z] = kernel(chunk, center_id)
    return out
```

Both are embedded per output position: `process_block edges arr shape st x y z`
is the value `out[x, y, z]` (0 outside the loop ranges / off the nonzero mask,
exactly as the zero-initialised `out` leaves it).  `offset = stencil / 2` is
integer division on the `np.int` stencil array.  Note the slice bounds of
`process_block`: the x-axis slice runs to `x + offset[0] + 1`, but the y- and
z-axis slices stop at `y + offset[1]` and `z + offset[2]`, i.e. the window is
`st₀ × (st₁ - 1) × (st₂ - 1)`, not the full stencil. -/

/-- Flattened window `arr[x0 : x0+nx, y0 : y0+ny, z0 : z0+nz]`. -/
def window3 (arr : ℕ → ℕ → ℕ → ℕ) (x0 nx y0 ny z0 nz : ℕ) : List ℕ :=
  (((List.range nx).map (fun i =>
      (List.range ny).map (fun j =>
        (List.range nz).map (fun k => arr (x0 + i) (y0 + j) (z0 + k))))).map
    List.flatten).flatten

/-- Value of `process_block` at output position `(x, y, z)` for an `arr`/`edges` pair of
shape `sh` and an odd `stencil` `st`.  The window slices are transcribed
verbatim from the source, including the missing `+ 1` on the y and z bounds. -/
def process_block (edges arr : ℕ → ℕ → ℕ → ℕ) (sh st : ℕ × ℕ × ℕ)
    (x y z : ℕ) : ℕ :=
  let o0 := st.1 / 2
  let o1 := st.2.1 / 2
  let o2 := st.2.2 / 2
  if o0 ≤ x ∧ x < sh.1 - o0 ∧ o1 ≤ y ∧ y < sh.2.1 - o1 ∧
      o2 ≤ z ∧ z < sh.2.2 - o2 then
    if edges x y z = 0 then 0
    else kernel (window3 arr (x - o0) (2 * o0 + 1) (y - o1) (2 * o1)
                   (z - o2) (2 * o2)) (arr x y z)
  else 0

/-- Value of `process_block_nonzero` at output position `(x, y, z)` (the output array has
shape `sh - st + 1`); the window here is the full `st`-shaped block. -/
def process_block_nonzero (edges arr : ℕ → ℕ → ℕ → ℕ) (sh st : ℕ × ℕ × ℕ)
    (x y z : ℕ) : ℕ :=
  let o0 := st.1 / 2
  let o1 := st.2.1 / 2
  let o2 := st.2.2 / 2
  if x + st.1 ≤ sh.1 ∧ y + st.2.1 ≤ sh.2.1 ∧ z + st.2.2 ≤ sh.2.2 then
    if edges (x + o0) (y + o1) (z + o2) = 0 then 0
    else kernel (window3 arr x st.1 y st.2.1 z st.2.2)
           (arr (x + o0) (y + o1) (z + o2))
  else 0

/-- Concrete 3×3×3 label block used to separate the two functions: id 5
everywhere except the plane `y = 2`, which carries id 7. -/
def arrC6 : ℕ → ℕ → ℕ → ℕ := fun _ y _ => if y = 2 then 7 else 5

/-- Edge mask flagging every voxel. -/
def edgesC6 : ℕ → ℕ → ℕ → ℕ := fun _ _ _ => 1

example : process_block edgesC6 arrC6 (3, 3, 3) (3, 3, 3) 1 1 1 = 0 := by decide
example : process_block_nonzero edgesC6 arrC6 (3, 3, 3) (3, 3, 3) 0 0 0 =
    5 * 2 ^ 32 + 7 := by decide

/-! Embedding of `make_merge_list` (objectextraction.py, 462–477).

```python
    graph = nx.from_edgelist(this_stitch_list)
    cc = nx.connected_components(graph)
    merge_list_dict[hdf5_name] = np.arange(max_label + 1)
    for this_cc in cc:
        this_cc = list(this_cc)
        for id in this_cc:
            merge_dict[hdf5_name][id] = this_cc[0]
            merge_list_dict[hdf5_name][id] = this_cc[0]
```

`nx.connected_components` yields, as Python sets, exactly the connected
components of the graph whose nodes are the ids occurring in the edge list.
`list(this_cc)` enumerates such a set in an order that networkx/CPython leave
unspecified (hash-table iteration order).  The embedding therefore takes the
component enumeration `comps : List (List ℕ)` as an explicit argument and
characterises the enumerations the library may return by `validEnum`:
the lists are nonempty, jointly duplicate-free, cover exactly the ids that
occur in some edge, are internally connected, and are closed under the edge
relation.  `this_cc[0]` is the head of the enumerated list. -/

/-- The node set of `nx.from_edgelist`: every id occurring in some stitch
edge (first occurrences kept, order irrelevant to the claims). -/
def nodesOf (edges : List (ℕ × ℕ)) : List ℕ :=
  (edges.map Prod.fst ++ edges.map Prod.snd).dedup

/-- Whether `a` and `b` are joined by some stitch edge (in either orientation). -/
def adjacentB (edges : List (ℕ × ℕ)) (a b : ℕ) : Bool :=
  edges.any (fun e => (e.1 = a ∧ e.2 = b) ∨ (e.1 = b ∧ e.2 = a))

/-- One breadth step: add every node adjacent to the current set. -/
def expandOnce (edges : List (ℕ × ℕ)) (s : List ℕ) : List ℕ :=
  (s ++ (nodesOf edges).filter (fun b => s.any (fun a => adjacentB edges a b))).dedup

/-- Iterated breadth steps. -/
def reachList (edges : List (ℕ × ℕ)) : ℕ → List ℕ → List ℕ
  | 0, s => s
  | n + 1, s => reachList edges n (expandOnce edges s)

/-- Whether `b` is reachable from `a` in the stitch graph ( `(nodesOf edges).length`
breadth steps saturate any component). -/
def connectedB (edges : List (ℕ × ℕ)) (a b : ℕ) : Bool :=
  decide (b ∈ reachList edges (nodesOf edges).length [a])

/-- The component enumerations `nx.connected_components` may return for the
stitch list `edges`, in the order/choice left open by set iteration. -/
def validEnum (edges : List (ℕ × ℕ)) (comps : List (List ℕ)) : Prop :=
  (∀ c ∈ comps, c ≠ []) ∧
  comps.flatten.Nodup ∧
  (∀ n ∈ comps.flatten, n ∈ nodesOf edges) ∧
  (∀ n ∈ nodesOf edges, n ∈ comps.flatten) ∧
  (∀ c ∈ comps, ∀ a ∈ c, ∀ b ∈ c, connectedB edges a b = true) ∧
  (∀ c ∈ comps, ∀ e ∈ edges, (e.1 ∈ c ↔ e.2 ∈ c))

instance (edges : List (ℕ × ℕ)) (comps : List (List ℕ)) :
    Decidable (validEnum edges comps) := by
  unfold validEnum; infer_instance

/-- The inner loop `for id in this_cc: merge_list[id] = this_cc[0]`. -/
def writeComp (arr : List ℕ) (comp : List ℕ) : List ℕ :=
  match comp with
  | [] => arr
  | r :: _ => comp.foldl (fun a id => a.set id r) arr

/-- The remap of `make_merge_list` for one hdf5 name: start from `np.arange(max_label + 1)`
and overwrite every id of every enumerated component with that component's
first enumerated element. -/
def make_merge_list (maxLabel : ℕ) (comps : List (List ℕ)) : List ℕ :=
  comps.foldl writeComp (List.range (maxLabel + 1))

example : make_merge_list 4 [[2, 1]] = [0, 2, 2, 3, 4] := by decide
example : make_merge_list 4 [[1, 2], [4, 3]] = [0, 1, 1, 4, 4] := by decide
example : validEnum [(1, 2)] [[2, 1]] := by decide
example : ¬ validEnum [(1, 2)] [[2], [1]] := by decide
example : validEnum [(1, 2), (4, 3)] [[3, 4], [1, 2]] := by decide

/-- Application of `apply_merge_list_thread` to one chunk's flattened label array: every label
is replaced by its remap entry (`merge_list_dict[...][label]`). -/
def apply_merge_list (remap : List ℕ) (labels : List ℕ) : List ℕ :=
  labels.map (fun l => remap.getD l 0)

/-! Embedding of the max-label bases and result collection
(`from_probabilities_to_objects`, objectextraction.py, 836–848).

```python
    for hdf5_name in hdf5names:
        nb_cc_dict[hdf5_name] = np.zeros(len(chunk_list), dtype=np.int32)
        ...
    for cc_info in cc_info_list:
        nb_cc_dict[cc_info[1]][chunk_translator[cc_info[0]]] = cc_info[2]
    for hdf5_name in hdf5names:
        max_nb_dict[hdf5_name][0] = 0
        for nb_chunk in range(1, len(chunk_list)):
            max_nb_dict[hdf5_name][nb_chunk] = \
                max_nb_dict[hdf5_name][nb_chunk - 1] + \
                nb_cc_dict[hdf5_name][nb_chunk - 1]
```

One hdf5 name is modelled.  `chunk_translator` maps a chunk id to its
position in `chunk_list`. -/

/-- The base-computing loop: `maxNbFrom acc counts` is the tail of the base
array starting with value `acc`. -/
def maxNbFrom (acc : ℕ) : List ℕ → List ℕ
  | [] => []
  | c :: cs => acc :: maxNbFrom (acc + c) cs

/-- The per-chunk bases (`max_nb_dict` entry) computed from the per-chunk
local component counts in chunk-list order. -/
def maxNbList (counts : List ℕ) : List ℕ :=
  maxNbFrom 0 counts

example : maxNbList [3, 0, 2, 1] = [0, 3, 3, 5] := by decide

/-- One result record applied to the count array: the loop body
`nb_cc_dict[...][chunk_translator[cc_info[0]]] = cc_info[2]`, with
`chunk_translator` sending a chunk id to its position in `chunk_list`. -/
def collectStep (chunkList : List ℕ) (arr : List ℕ) (r : ℕ × ℕ) : List ℕ :=
  match chunkList.findIdx? (· = r.1) with
  | some i => arr.set i r.2
  | none => arr

/-- Collection of per-chunk counts: start from `np.zeros(len(chunk_list))` and
overwrite the entry of each chunk that delivered a result record
`(chunk_id, count)`.  A chunk with no record keeps the initial 0. -/
def collectCounts (chunkList : List ℕ) (results : List (ℕ × ℕ)) : List ℕ :=
  results.foldl (collectStep chunkList) (List.replicate chunkList.length 0)

/-- The pipeline step that follows collection unconditionally: compute the
global-id bases from the collected counts. -/
def allocateBases (chunkList : List ℕ) (results : List (ℕ × ℕ)) : List ℕ :=
  maxNbList (collectCounts chunkList results)

example : collectCounts [0, 1] [(0, 5)] = [5, 0] := by decide
example : allocateBases [0, 1] [(0, 5)] = [0, 5] := by decide

/-! Embedding of the "auto" overlap computation
(`gauss_threshold_connected_components`, objectextraction.py, 253–264).

```python
    if sigmas is None:
        sigmas = np.zeros(len(hdf5names))
    ...
    stitch_overlap = np.array([1, 1, 1])
    if overlap == "auto":
        # Truncation of gaussian kernel is 4 per standard deviation
        if sigmas is None:          # dead: sigmas was already defaulted above
            max_sigma = np.zeros(3)
        else:
            max_sigma = np.array([np.max(sigmas)] * 3)
        overlap = np.ceil(max_sigma * 4) + stitch_overlap
```

`sigmas` is a list of per-channel sigma lists (one entry per axis);
`np.max(sigmas)` is the maximum over all channels and axes.  When `sigmas is
None` it is replaced by per-channel zeros.  The inner `if sigmas is None`
branch is unreachable after that defaulting and the embedding reflects the
reassigned value.  `overlap = none` below stands for the string `"auto"`;
`some ov` stands for a caller-supplied overlap triple. -/

/-- Maximum of a nonempty list, as `np.max` computes it (junk value 0 on `[]`,
where numpy raises). -/
def npMaxQ : List ℚ → ℚ
  | [] => 0
  | x :: xs => xs.foldl max x

/-- Overlap and stitch overlap as computed by
`gauss_threshold_connected_components`: the pair
`(overlap, stitch_overlap)` it passes on (`overlap_info`). -/
def overlapInfo (overlap : Option (ℤ × ℤ × ℤ))
    (sigmas0 : Option (List (List ℚ))) (nbNames : ℕ) :
    (ℤ × ℤ × ℤ) × (ℤ × ℤ × ℤ) :=
  let sigmas : List (List ℚ) :=
    match sigmas0 with
    | none => List.replicate nbNames [0]
    | some s => s
  let stitch : ℤ × ℤ × ℤ := (1, 1, 1)
  match overlap with
  | some ov => (ov, stitch)
  | none =>
    let maxSigma := npMaxQ sigmas.flatten
    let ov := ⌈maxSigma * 4⌉ + 1
    ((ov, ov, ov), stitch)

example : overlapInfo none (some [[1/2, 1], [2]]) 2 = ((9, 9, 9), (1, 1, 1)) := by
  norm_num [overlapInfo, npMaxQ]

/-! Embedding of the threshold rescaling (`from_probabilities_to_objects`,
798–800).

```python
    if thresholds is not None and thresholds[0] <= 1.:
        thresholds = np.array(thresholds)
        thresholds *= 255
```

(`headI` stands for `thresholds[0]`; Python raises on an empty list, so the
theorems assume the list nonempty.) -/

/-- The threshold rescaling step of `from_probabilities_to_objects`. -/
def rescaleThresholds : Option (List ℚ) → Option (List ℚ)
  | none => none
  | some ts => if ts.headI ≤ 1 then some (ts.map (· * 255)) else some ts

example : rescaleThresholds (some [1/2, 3]) = some [255/2, 765] := by
  norm_num [rescaleThresholds]
example : rescaleThresholds (some [3/2, 1/2]) = some [3/2, 1/2] := by
  norm_num [rescaleThresholds]

/-! Embedding of the background-ratio correction
(`_apply_mapping_decisions_thread`, ssd_proc.py, 130–185).

```python
    if obj_type == "sj":
        correct_for_background = True
    else:
        correct_for_background = False
    ...
    if correct_for_background:
        for i_so_id in ...:
            ...
            if 0 in this_so.attr_dict["mapping_ids"]:
                ratio_0 = this_so.attr_dict["mapping_ratios"][
                    this_so.attr_dict["mapping_ids"] == 0][0]
                obj_ratios[i_so_id] /= (1 - ratio_0)
```

The division carries no guard on `ratio_0 == 1`.  Division is embedded as
fallible: `none` is the division-by-zero error branch. -/

/-- The `correct_for_background` flag as set from the object type. -/
def correctForBackground (objType : String) : Bool :=
  objType = "sj"

/-- The ratio `mapping_ratios[mapping_ids == 0][0]`: the one at the first position
whose mapping id is 0. -/
def ratioAtZero (mappingIds : List ℕ) (mappingRatios : List ℚ) : Option ℚ :=
  ((mappingIds.zip mappingRatios).find? (fun p => p.1 = 0)).map Prod.snd

/-- The corrected ratio of one candidate object: `none` is the reachable
division-by-zero error branch of `obj_ratios[i] /= (1 - ratio_0)`. -/
def correctedRatio (objType : String) (objRatio : ℚ)
    (mappingIds : List ℕ) (mappingRatios : List ℚ) : Option ℚ :=
  if correctForBackground objType then
    if 0 ∈ mappingIds then
      match ratioAtZero mappingIds mappingRatios with
      | some r0 => if 1 - r0 = 0 then none else some (objRatio / (1 - r0))
      | none => some objRatio
    else some objRatio
  else some objRatio

example : correctedRatio "sj" (1/2) [3, 0] [1/4, 1/4] = some (2/3) := by
  norm_num [correctedRatio, correctForBackground, ratioAtZero]
example : correctedRatio "mi" (1/2) [0] [1] = some (1/2) := by
  norm_num [correctedRatio, correctForBackground]
  exact fun h => absurd h (by decide)

/-! Helper lemmas about the base computation. -/

lemma maxNbFrom_length (cs : List ℕ) : ∀ acc : ℕ, (maxNbFrom acc cs).length = cs.length := by
  induction cs with
  | nil => intro acc; rfl
  | cons c cs ih => intro acc; simp [maxNbFrom, ih]

lemma getD_maxNbFrom (cs : List ℕ) : ∀ acc i : ℕ, i < cs.length →
    (maxNbFrom acc cs).getD i 0 = acc + (cs.take i).sum := by
  induction cs with
  | nil => intro acc i h; simp at h
  | cons c cs ih =>
    intro acc i h
    cases i with
    | zero => simp [maxNbFrom]
    | succ i =>
      have hi : i < cs.length := by simpa using h
      simp only [maxNbFrom, List.getD_cons_succ, ih (acc + c) i hi,
        List.take_succ_cons, List.sum_cons]
      omega

lemma getD_maxNbList (counts : List ℕ) (i : ℕ) (h : i < counts.length) :
    (maxNbList counts).getD i 0 = (counts.take i).sum := by
  simpa using getD_maxNbFrom counts 0 i h

/-- C2.  The per-chunk bases computed in `from_probabilities_to_objects` form
the exclusive prefix sum of the per-chunk local component counts in chunk-list
order: the first base is 0 and consecutive bases differ by the earlier chunk's
count.  The bases are monotone non-decreasing, and strictly increasing as soon
as every local count is positive; a zero count makes two consecutive bases
equal, so strict increase does not hold unconditionally (see the
counterexample). -/
theorem max_nb_exclusive_prefix_sum (counts : List ℕ) :
    (maxNbList counts).length = counts.length ∧
    (counts ≠ [] → (maxNbList counts).getD 0 0 = 0) ∧
    (∀ i, i + 1 < counts.length →
      (maxNbList counts).getD (i + 1) 0 =
        (maxNbList counts).getD i 0 + counts.getD i 0) ∧
    (∀ i j, i ≤ j → j < counts.length →
      (maxNbList counts).getD i 0 ≤ (maxNbList counts).getD j 0) ∧
    ((∀ c ∈ counts, 0 < c) → ∀ i, i + 1 < counts.length →
      (maxNbList counts).getD i 0 < (maxNbList counts).getD (i + 1) 0) := by
  have hdiff : ∀ i, i + 1 < counts.length →
      (maxNbList counts).getD (i + 1) 0 =
        (maxNbList counts).getD i 0 + counts.getD i 0 := by
    intro i h
    have hi : i < counts.length := Nat.lt_of_succ_lt h
    rw [getD_maxNbList counts (i + 1) h, getD_maxNbList counts i hi,
      List.sum_take_succ counts i hi, List.getD_eq_getElem counts 0 hi]
  refine ⟨maxNbFrom_length counts 0, ?_, hdiff, ?_, ?_⟩
  · intro hne
    have h0 : 0 < counts.length := List.length_pos.mpr hne
    rw [getD_maxNbList counts 0 h0]
    simp
  · intro i j hij hj
    induction j with
    | zero => obtain rfl : i = 0 := Nat.le_zero.mp hij; exact le_rfl
    | succ j ihj =>
      rcases Nat.eq_or_lt_of_le hij with rfl | hlt
      · exact le_rfl
      · have hij' : i ≤ j := Nat.lt_succ_iff.mp hlt
        have hj' : j < counts.length := Nat.lt_of_succ_lt hj
        exact le_trans (ihj hij' hj') (by rw [hdiff j hj]; exact Nat.le_add_right _ _)
  · intro hpos i h
    have hi : i < counts.length := Nat.lt_of_succ_lt h
    have hc : 0 < counts.getD i 0 := by
      rw [List.getD_eq_getElem counts 0 hi]
      exact hpos _ (counts.getElem_mem hi)
    rw [hdiff i h]
    omega

/-- C2, counterexample to unconditional strict increase: two chunks that both
extracted zero objects give the bases `[0, 0]`, which are not strictly
increasing (the difference property still holds, with difference 0). -/
theorem max_nb_not_strictly_increasing :
    maxNbList [0, 0] = [0, 0] ∧
    ¬ (maxNbList [0, 0]).getD 0 0 < (maxNbList [0, 0]).getD 1 0 := by decide

/-- C2, witness: the amended statement applied to the concrete counts
`[1, 2]`. -/
theorem max_nb_exclusive_prefix_sum_witness :
    (maxNbList [1, 2]).getD 0 0 = 0 ∧
    (maxNbList [1, 2]).getD 1 0 = (maxNbList [1, 2]).getD 0 0 + 1 ∧
    (maxNbList [1, 2]).getD 0 0 < (maxNbList [1, 2]).getD 1 0 := by
  refine ⟨(max_nb_exclusive_prefix_sum [1, 2]).2.1 (by decide), ?_, ?_⟩
  · have h := (max_nb_exclusive_prefix_sum [1, 2]).2.2.1 0 (by decide)
    simpa using h
  · exact (max_nb_exclusive_prefix_sum [1, 2]).2.2.2.2 (by decide) 0 (by decide)

/-! Helper lemmas about result collection. -/

lemma collectStep_length (cl : List ℕ) (arr : List ℕ) (r : ℕ × ℕ) :
    (collectStep cl arr r).length = arr.length := by
  unfold collectStep
  split <;> simp

lemma foldl_collectStep_length (cl : List ℕ) (results : List (ℕ × ℕ)) :
    ∀ arr : List ℕ, (results.foldl (collectStep cl) arr).length = arr.length := by
  induction results with
  | nil => intro arr; rfl
  | cons r rs ih =>
    intro arr
    rw [List.foldl_cons, ih (collectStep cl arr r), collectStep_length]

lemma collectCounts_length (cl : List ℕ) (results : List (ℕ × ℕ)) :
    (collectCounts cl results).length = cl.length := by
  rw [collectCounts, foldl_collectStep_length, List.length_replicate]

lemma collectStep_getD_of_ne (cl : List ℕ) (arr : List ℕ) (r : ℕ × ℕ) (i : ℕ)
    (hi : i < cl.length) (hr : r.1 ≠ cl.getD i 0) :
    (collectStep cl arr r).getD i 0 = arr.getD i 0 := by
  unfold collectStep
  split
  case h_1 j hj =>
    have hj' := List.findIdx?_eq_some_iff_getElem.mp hj
    obtain ⟨hjl, hpj, -⟩ := hj'
    have hcl : cl[j] = r.1 := by simpa using hpj
    have hne : j ≠ i := by
      intro h
      subst h
      rw [List.getD_eq_getElem cl 0 hjl] at hr
      exact hr hcl.symm
    simp [List.getD_eq_getElem?_getD, List.getElem?_set_ne hne]
  case h_2 => rfl

lemma foldl_collectStep_getD_of_absent (cl : List ℕ) (results : List (ℕ × ℕ))
    (i : ℕ) (hi : i < cl.length) :
    ∀ arr : List ℕ, (∀ r ∈ results, r.1 ≠ cl.getD i 0) →
      (results.foldl (collectStep cl) arr).getD i 0 = arr.getD i 0 := by
  induction results with
  | nil => intro arr _; rfl
  | cons r rs ih =>
    intro arr habs
    rw [List.foldl_cons, ih (collectStep cl arr r) (fun s hs => habs s (List.mem_cons_of_mem r hs)),
      collectStep_getD_of_ne cl arr r i hi (habs r (List.mem_cons_self r rs))]

lemma set_getD_eq_self (l : List ℕ) (i : ℕ) (v : ℕ) (hi : i < l.length)
    (hv : l.getD i 0 = v) : l.set i v = l := by
  apply List.ext_getElem?
  intro j
  rw [List.getElem?_set]
  by_cases h : i = j
  · subst h
    rw [if_pos rfl, if_pos hi, List.getElem?_eq_getElem hi,
      ← List.getD_eq_getElem l 0 hi, hv]
  · rw [if_neg h]

lemma findIdx?_self_of_nodup (cl : List ℕ) (i : ℕ) (hi : i < cl.length)
    (hnd : cl.Nodup) : cl.findIdx? (· = cl.getD i 0) = some i := by
  rw [List.findIdx?_eq_some_iff_getElem]
  refine ⟨hi, by simp [List.getElem?_eq_getElem hi], ?_⟩
  intro j hji
  simp only [List.getD_eq_getElem cl 0 hi, decide_eq_true_eq]
  intro h
  have := (List.Nodup.getElem_inj_iff hnd).mp h
  omega

lemma collectStep_explicit_zero (cl arr : List ℕ) (i : ℕ) (hi : i < cl.length)
    (hnd : cl.Nodup) (hlen : arr.length = cl.length) (h0 : arr.getD i 0 = 0) :
    collectStep cl arr (cl.getD i 0, 0) = arr := by
  have hm : collectStep cl arr (cl.getD i 0, 0) =
      match cl.findIdx? (· = cl.getD i 0) with
      | some j => arr.set j 0
      | none => arr := rfl
  rw [hm, findIdx?_self_of_nodup cl i hi hnd]
  exact set_getD_eq_self arr i 0 (Nat.lt_of_lt_of_eq hi hlen.symm) h0

/-- C3, counterexample: with chunk list `[0, 1]` and chunk 1's extraction
result missing, the collected counts are `[5, 0]` — identical to the counts
obtained when chunk 1 explicitly reports zero objects — and the pipeline
proceeds to compute the global-id bases `[0, 5]` with no failure and no report
of the missing chunk. -/
theorem missing_chunk_not_reported :
    collectCounts [0, 1] [(0, 5)] = [5, 0] ∧
    collectCounts [0, 1] [(0, 5)] = collectCounts [0, 1] [(0, 5), (1, 0)] ∧
    allocateBases [0, 1] [(0, 5)] = [0, 5] := by decide

/-- C3 (amended).  If one chunk's extraction produces no result record, the
collection loop silently leaves that chunk's count at the zero it was
initialised with: the collected counts are exactly those of a chunk that
reported zero objects, and the pipeline proceeds to global ID allocation on
them.  No check detects or reports the missing chunk id. -/
theorem missing_chunk_counted_as_zero (chunkList : List ℕ) (results : List (ℕ × ℕ))
    (i : ℕ) (hi : i < chunkList.length) (hnd : chunkList.Nodup)
    (habs : ∀ r ∈ results, r.1 ≠ chunkList.getD i 0) :
    (collectCounts chunkList results).getD i 0 = 0 ∧
    collectCounts chunkList (results ++ [(chunkList.getD i 0, 0)]) =
      collectCounts chunkList results ∧
    allocateBases chunkList (results ++ [(chunkList.getD i 0, 0)]) =
      allocateBases chunkList results := by
  have h0 : (collectCounts chunkList results).getD i 0 = 0 := by
    rw [collectCounts,
      foldl_collectStep_getD_of_absent chunkList results i hi _ habs]
    simp
  have heq : collectCounts chunkList (results ++ [(chunkList.getD i 0, 0)]) =
      collectCounts chunkList results := by
    rw [collectCounts, List.foldl_append, List.foldl_cons, List.foldl_nil]
    exact collectStep_explicit_zero chunkList _ i hi hnd
      (foldl_collectStep_length chunkList results _ |>.trans
        (List.length_replicate _ _)) h0
  exact ⟨h0, heq, by rw [allocateBases, allocateBases, heq]⟩

/-- C3, witness: the amended statement applied to chunk list `[0, 1]` with
chunk 1's record absent. -/
theorem missing_chunk_counted_as_zero_witness :
    (collectCounts [0, 1] [(0, 5)]).getD 1 0 = 0 ∧
    collectCounts [0, 1] [(0, 5), (1, 0)] = collectCounts [0, 1] [(0, 5)] := by
  have h := missing_chunk_counted_as_zero [0, 1] [(0, 5)] 1 (by decide) (by decide)
    (by decide)
  exact ⟨h.1, h.2.1⟩

/-! Helper lemmas about `npMaxQ`. -/

lemma foldl_max_bounds (xs : List ℚ) : ∀ x : ℚ,
    x ≤ xs.foldl max x ∧ ∀ a ∈ xs, a ≤ xs.foldl max x := by
  induction xs with
  | nil => intro x; exact ⟨le_rfl, by simp⟩
  | cons y ys ih =>
    intro x
    rw [List.foldl_cons]
    refine ⟨le_trans (le_max_left x y) (ih (max x y)).1, ?_⟩
    intro a ha
    rcases List.mem_cons.mp ha with rfl | ha
    · exact le_trans (le_max_right x a) (ih (max x a)).1
    · exact (ih (max x y)).2 a ha

lemma foldl_max_mem (xs : List ℚ) : ∀ x : ℚ,
    xs.foldl max x = x ∨ xs.foldl max x ∈ xs := by
  induction xs with
  | nil => intro x; exact Or.inl rfl
  | cons y ys ih =>
    intro x
    rw [List.foldl_cons]
    rcases ih (max x y) with h | h
    · rcases max_choice x y with hm | hm
      · exact Or.inl (h.trans hm)
      · exact Or.inr (List.mem_cons.mpr (Or.inl (h.trans hm)))
    · exact Or.inr (List.mem_cons.mpr (Or.inr h))

lemma npMaxQ_mem (l : List ℚ) (h : l ≠ []) : npMaxQ l ∈ l := by
  match l, h with
  | x :: xs, _ =>
    rcases foldl_max_mem xs x with h' | h'
    · rw [npMaxQ, h']; exact List.mem_cons_self x xs
    · rw [npMaxQ]; exact List.mem_cons_of_mem x h'

lemma le_npMaxQ (l : List ℚ) (a : ℚ) (ha : a ∈ l) : a ≤ npMaxQ l := by
  match l with
  | x :: xs =>
    rcases List.mem_cons.mp ha with rfl | ha'
    · exact (foldl_max_bounds xs a).1
    · exact (foldl_max_bounds xs x).2 a ha'

/-- C7.  With `overlap="auto"`, `gauss_threshold_connected_components` fixes
`stitch_overlap = (1, 1, 1)` and sets every axis's overlap to
`ceil(4 * max(sigmas)) + 1`, where the maximum is taken over all channels and
axes of the supplied sigmas (nonempty, as `np.max` requires). -/
theorem auto_overlap_eq (s : List (List ℚ)) (nbNames : ℕ) (h : s.flatten ≠ []) :
    overlapInfo none (some s) nbNames =
      ((⌈npMaxQ s.flatten * 4⌉ + 1, ⌈npMaxQ s.flatten * 4⌉ + 1,
        ⌈npMaxQ s.flatten * 4⌉ + 1), (1, 1, 1)) ∧
    ⌈npMaxQ s.flatten * 4⌉ + 1 = ⌈(4 : ℚ) * npMaxQ s.flatten⌉ + 1 ∧
    npMaxQ s.flatten ∈ s.flatten ∧
    ∀ σ ∈ s.flatten, σ ≤ npMaxQ s.flatten := by
  exact ⟨rfl, by rw [mul_comm], npMaxQ_mem _ h, le_npMaxQ _⟩

/-- C7, witness: a single channel with sigma 0 per axis yields overlap
`(1, 1, 1)` on every axis and stitch overlap `(1, 1, 1)`. -/
theorem auto_overlap_eq_witness :
    overlapInfo none (some [[(0 : ℚ)]]) 1 = ((1, 1, 1), (1, 1, 1)) := by
  have h := (auto_overlap_eq [[(0 : ℚ)]] 1 (by simp)).1
  simpa [npMaxQ] using h

/-- C9.  The background-ratio correction in `_apply_mapping_decisions_thread`
is active exactly for objects of type `"sj"` and divides by `(1 - ratio_0)`
with no guard: for an object whose background mapping ratio `ratio_0` is 1 the
division-by-zero error branch is reached. -/
theorem background_ratio_div_by_zero :
    correctForBackground "sj" = true ∧
    correctedRatio "sj" 1 [0] [1] = none ∧
    correctedRatio "sj" 1 [0] [1 / 2] = some 2 := by
  refine ⟨rfl, ?_, ?_⟩
  · norm_num [correctedRatio, correctForBackground, ratioAtZero]
  · norm_num [correctedRatio, correctForBackground, ratioAtZero]

/-- C10.  In `from_probabilities_to_objects`, a given threshold list whose
first entry is at most 1 is rescaled by multiplying every entry by 255 (also
entries above 1); if the first entry exceeds 1, no entry is changed.  The
decision reads only the first entry, which on a nonempty list is what Python's
`thresholds[0]` yields. -/
theorem rescale_thresholds_spec (ts : List ℚ) (h : ts ≠ []) :
    (ts.headI ≤ 1 → rescaleThresholds (some ts) = some (ts.map (· * 255))) ∧
    (1 < ts.headI → rescaleThresholds (some ts) = some ts) := by
  constructor
  · intro hle
    rw [rescaleThresholds, if_pos hle]
  · intro hgt
    rw [rescaleThresholds, if_neg (not_le.mpr hgt)]

/-- C10, witness: `[1]` (first entry ≤ 1) is rescaled entrywise to `[255]`;
`[2]` (first entry > 1) is unchanged. -/
theorem rescale_thresholds_spec_witness :
    rescaleThresholds (some [(1 : ℚ)]) = some [255] ∧
    rescaleThresholds (some [(2 : ℚ)]) = some [2] := by
  constructor
  · have h := (rescale_thresholds_spec [(1 : ℚ)] (by simp)).1 (by simp)
    simpa using h
  · exact (rescale_thresholds_spec [(2 : ℚ)] (by simp)).2 one_lt_two

/-- C6.  The two block-processing routines are *not* equivalent at common
positions, and `process_block` does not inspect the full stencil-shaped
window: its slice bounds add `offset + 1` on the x axis but only `offset` on
the y and z axes, so the last y and z planes of the stencil window are
dropped.  On a 3×3×3 block whose merge partner (id 7) lies only in the plane
`y = 2`, `process_block` sees no partner and returns 0 at the center while
`process_block_nonzero`, which takes the full 3×3×3 window, returns the key
`(5 << 32) + 7`. -/
theorem process_block_truncates_window :
    process_block edgesC6 arrC6 (3, 3, 3) (3, 3, 3) 1 1 1 = 0 ∧
    process_block_nonzero edgesC6 arrC6 (3, 3, 3) (3, 3, 3) 0 0 0 =
      5 * 2 ^ 32 + 7 ∧
    process_block edgesC6 arrC6 (3, 3, 3) (3, 3, 3) 1 1 1 ≠
      process_block_nonzero edgesC6 arrC6 (3, 3, 3) (3, 3, 3) 0 0 0 ∧
    (7 : ℕ) ∈ window3 arrC6 0 3 0 3 0 3 ∧
    (7 : ℕ) ∉ window3 arrC6 0 3 0 2 0 2 := by decide

/-! Helper lemmas about `kernel`. -/

lemma mem_uniqueIds {w : List ℕ} {a : ℕ} : a ∈ uniqueIds w ↔ a ∈ w := by
  rw [uniqueIds, (List.perm_insertionSort _ _).mem_iff, List.mem_dedup]

lemma nodup_uniqueIds (w : List ℕ) : (uniqueIds w).Nodup :=
  (List.perm_insertionSort _ _).nodup_iff.mpr w.nodup_dedup

lemma sorted_uniqueIds (w : List ℕ) : (uniqueIds w).Sorted (· ≤ ·) :=
  List.sorted_insertionSort _ _

lemma maxZ_isSome {l : List ℤ} (h : l ≠ []) : ∃ m, l.max? = some m := by
  cases l with
  | nil => exact absurd rfl h
  | cons x xs => exact ⟨_, rfl⟩

lemma maxZ_mem {l : List ℤ} {m : ℤ} (h : l.max? = some m) : m ∈ l :=
  List.max?_mem max_choice h

lemma maxZ_le {l : List ℤ} {m : ℤ} (h : l.max? = some m) : ∀ b ∈ l, b ≤ m :=
  (List.max?_le_iff (fun _ _ _ => max_le_iff) h).1 le_rfl

lemma argmaxFirst_spec : ∀ (l : List ℤ) (m : ℤ), l.max? = some m →
    argmaxFirst l < l.length ∧ l.getD (argmaxFirst l) 0 = m ∧
    ∀ j < argmaxFirst l, l.getD j 0 < m := by
  intro l
  induction l with
  | nil => intro m hm; simp at hm
  | cons x xs ih =>
    intro m hm
    rw [List.max?_cons] at hm
    cases hxs : xs.max? with
    | none =>
      rw [hxs] at hm
      simp only [Option.elim_none, Option.some.injEq] at hm
      subst hm
      have ha : argmaxFirst (x :: xs) = 0 := by simp [argmaxFirst, hxs]
      rw [ha]
      exact ⟨by simp, by simp, by intro j hj; omega⟩
    | some mx =>
      rw [hxs] at hm
      simp only [Option.elim_some, Option.some.injEq] at hm
      subst hm
      by_cases hle : mx ≤ x
      · have ha : argmaxFirst (x :: xs) = 0 := by simp [argmaxFirst, hxs, hle]
        rw [ha]
        refine ⟨by simp, by simp [max_eq_left hle], by intro j hj; omega⟩
      · have hlt : x < mx := not_le.mp hle
        have hmx : max x mx = mx := max_eq_right (le_of_lt hlt)
        have ha : argmaxFirst (x :: xs) = argmaxFirst xs + 1 := by
          simp [argmaxFirst, hxs, hle]
        obtain ⟨ih1, ih2, ih3⟩ := ih mx hxs
        rw [ha, hmx]
        refine ⟨by simpa using Nat.succ_lt_succ ih1, ?_, ?_⟩
        · rw [List.getD_cons_succ, ih2]
        · intro j hj
          cases j with
          | zero => rw [List.getD_cons_zero]; exact hlt
          | succ k =>
            rw [List.getD_cons_succ]
            exact ih3 k (Nat.lt_of_succ_lt_succ hj)

/-- The fully unfolded form of `kernel`. -/
lemma kernel_eq (w : List ℕ) (center : ℕ) :
    kernel w center =
      match ((uniqueIds w).map (maskedCount w center)).max? with
      | none => 0
      | some m =>
        if 0 < m then
          if (uniqueIds w).getD
              (argmaxFirst ((uniqueIds w).map (maskedCount w center))) 0 <
              center then
            (uniqueIds w).getD
              (argmaxFirst ((uniqueIds w).map (maskedCount w center))) 0 *
              2 ^ 32 + center
          else
            center * 2 ^ 32 +
              (uniqueIds w).getD
                (argmaxFirst ((uniqueIds w).map (maskedCount w center))) 0
        else 0 := rfl

lemma maskedCount_of_ne {w : List ℕ} {center c : ℕ} (hc0 : c ≠ 0)
    (hcc : c ≠ center) : maskedCount w center c = (w.count c : ℤ) := by
  rw [maskedCount, if_neg (not_or.mpr ⟨hc0, hcc⟩)]

/-- Core analysis of `kernel` when some id other than background and the
center occurs in the window: the returned key is built from the smallest id of
maximal masked count. -/
lemma kernel_partner (w : List ℕ) (center : ℕ)
    (hx : ∃ b, b ∈ w ∧ b ≠ 0 ∧ b ≠ center) :
    ∃ p, p ∈ w ∧ p ≠ 0 ∧ p ≠ center ∧
      (∀ c ∈ w, c ≠ 0 → c ≠ center → w.count c ≤ w.count p) ∧
      (∀ c ∈ w, c ≠ 0 → c ≠ center → w.count c = w.count p → p ≤ c) ∧
      kernel w center = min center p * 2 ^ 32 + max center p := by
  obtain ⟨b, hbw, hb0, hbc⟩ := hx
  have hbids : b ∈ uniqueIds w := mem_uniqueIds.mpr hbw
  set ids := uniqueIds w with hids
  set counts := ids.map (maskedCount w center) with hcounts
  have hcne : counts ≠ [] := by
    rw [hcounts]
    exact fun h => absurd (List.map_eq_nil_iff.mp h ▸ hbids) (List.not_mem_nil b)
  obtain ⟨m, hm⟩ := maxZ_isSome hcne
  have hmb : maskedCount w center b ≤ m :=
    maxZ_le hm _ (List.mem_map_of_mem _ hbids)
  have hb1 : (1 : ℤ) ≤ maskedCount w center b := by
    rw [maskedCount_of_ne hb0 hbc]
    exact_mod_cast List.count_pos_iff.mpr hbw
  have hm0 : (0 : ℤ) < m := lt_of_lt_of_le (by omega) hmb
  obtain ⟨hlen, hget, hfirst⟩ := argmaxFirst_spec counts m hm
  have hlen' : argmaxFirst counts < ids.length := by
    rw [hcounts, List.length_map] at hlen
    exact hlen
  set p := ids.getD (argmaxFirst counts) 0 with hp
  have hcg : counts.getD (argmaxFirst counts) 0 = maskedCount w center p := by
    rw [hcounts, List.getD_eq_getElem _ _ hlen, List.getElem_map, hp,
      List.getD_eq_getElem _ _ hlen']
  have hmp : maskedCount w center p = m := by rw [← hcg, hget]
  have hpne : p ≠ 0 ∧ p ≠ center := by
    by_contra hcon
    have : maskedCount w center p = -1 := by
      rw [maskedCount, if_pos]
      rcases Decidable.not_and_iff_or_not.mp hcon with h | h
      · exact Or.inl (Decidable.not_not.mp h)
      · exact Or.inr (Decidable.not_not.mp h)
    rw [this] at hmp
    omega
  have hpcount : (w.count p : ℤ) = m := by
    rw [← maskedCount_of_ne hpne.1 hpne.2, hmp]
  have hpw : p ∈ w := by
    have : 0 < w.count p := by exact_mod_cast hpcount ▸ hm0
    exact List.count_pos_iff.mp this
  have hmaxc : ∀ c ∈ w, c ≠ 0 → c ≠ center → w.count c ≤ w.count p := by
    intro c hcw hc0 hcc
    have h1 : maskedCount w center c ≤ m :=
      maxZ_le hm _ (List.mem_map_of_mem _ (mem_uniqueIds.mpr hcw))
    rw [maskedCount_of_ne hc0 hcc, ← hpcount] at h1
    exact_mod_cast h1
  have htie : ∀ c ∈ w, c ≠ 0 → c ≠ center → w.count c = w.count p → p ≤ c := by
    intro c hcw hc0 hcc hcnt
    have hcids : c ∈ ids := mem_uniqueIds.mpr hcw
    obtain ⟨⟨j, hj⟩, hjc⟩ := List.mem_iff_get.mp hcids
    have hjcount : counts.getD j 0 = m := by
      rw [hcounts, List.getD_eq_getElem _ _ (by simpa using hj), List.getElem_map]
      have : ids[j] = c := hjc
      rw [this, maskedCount_of_ne hc0 hcc, hcnt, hpcount]
    have hji0 : ¬ j < argmaxFirst counts := by
      intro hcon
      have := hfirst j hcon
      rw [hjcount] at this
      exact absurd this (lt_irrefl m)
    rcases Nat.eq_or_lt_of_le (Nat.le_of_not_lt hji0) with heq | hlt'
    · subst heq
      rw [hp, ← hjc, List.getD_eq_getElem _ _ hlen']
      exact le_rfl
    · have hrel := (sorted_uniqueIds w).rel_get_of_lt
        (a := ⟨argmaxFirst counts, hlen'⟩) (b := ⟨j, hj⟩) hlt'
      rw [← hjc]
      rw [hp, List.getD_eq_getElem _ _ hlen']
      exact hrel
  refine ⟨p, hpw, hpne.1, hpne.2, hmaxc, htie, ?_⟩
  rw [kernel_eq, ← hids, ← hcounts, hm]
  simp only [if_pos hm0, ← hp]
  by_cases hpc : p < center
  · rw [if_pos hpc, min_eq_right (le_of_lt hpc), max_eq_left (le_of_lt hpc)]
  · rw [if_neg hpc, min_eq_left (not_lt.mp hpc), max_eq_right (not_lt.mp hpc)]

lemma kernel_eq_zero_of_no_partner (w : List ℕ) (center : ℕ) (hw : w ≠ [])
    (hall : ∀ b ∈ w, b = 0 ∨ b = center) : kernel w center = 0 := by
  set ids := uniqueIds w with hids
  set counts := ids.map (maskedCount w center) with hcounts
  have hidsne : ids ≠ [] := by
    cases hcase : w with
    | nil => exact absurd hcase hw
    | cons x xs =>
      intro hnil
      have : x ∈ ids := mem_uniqueIds.mpr (hcase ▸ List.mem_cons_self x xs)
      rw [hnil] at this
      exact List.not_mem_nil x this
  have hcne : counts ≠ [] := by
    rw [hcounts]
    intro h
    exact hidsne (List.map_eq_nil_iff.mp h)
  obtain ⟨m, hm⟩ := maxZ_isSome hcne
  have hmneg : m = -1 := by
    have hmem := maxZ_mem hm
    rw [hcounts] at hmem
    obtain ⟨c, hc, hval⟩ := List.mem_map.mp hmem
    rw [← hval, maskedCount, if_pos (hall c (mem_uniqueIds.mp hc))]
  rw [kernel_eq, ← hids, ← hcounts, hm, hmneg]
  norm_num

/-- C4.  On a nonempty window, `kernel` returns 0 exactly when the window
holds no id besides background 0 and the center's own id; otherwise it returns
the single integer key `(min(a,b) << 32) + (max(a,b))` (`<< 32` is `* 2^32`),
where `a` is the center id and `b` is an id of maximal multiplicity in the
window among ids distinct from 0 and from the center. -/
theorem kernel_key_spec (w : List ℕ) (center : ℕ) (hw : w ≠ []) :
    ((∀ b ∈ w, b = 0 ∨ b = center) → kernel w center = 0) ∧
    ((∃ b, b ∈ w ∧ b ≠ 0 ∧ b ≠ center) →
      ∃ b, b ∈ w ∧ b ≠ 0 ∧ b ≠ center ∧
        (∀ c ∈ w, c ≠ 0 → c ≠ center → w.count c ≤ w.count b) ∧
        kernel w center = min center b * 2 ^ 32 + max center b) := by
  refine ⟨kernel_eq_zero_of_no_partner w center hw, ?_⟩
  intro hx
  obtain ⟨p, h1, h2, h3, h4, -, h6⟩ := kernel_partner w center hx
  exact ⟨p, h1, h2, h3, h4, h6⟩

/-- C4, witness: a window with only background and the center id gives 0; the
window `[0, 5, 7, 7, 3]` with center 5 has unique partner candidate counts
{3 ↦ 1, 7 ↦ 2}, so the key pairs the center 5 with the most frequent id 7. -/
theorem kernel_key_spec_witness :
    kernel [0, 5, 5, 0] 5 = 0 ∧
    (∃ b, b ∈ [0, 5, 7, 7, 3] ∧ b ≠ 0 ∧ b ≠ 5 ∧
      (∀ c ∈ [0, 5, 7, 7, 3], c ≠ 0 → c ≠ 5 →
        List.count c [0, 5, 7, 7, 3] ≤ List.count b [0, 5, 7, 7, 3]) ∧
      kernel [0, 5, 7, 7, 3] 5 = min 5 b * 2 ^ 32 + max 5 b) := by
  exact ⟨(kernel_key_spec [0, 5, 5, 0] 5 (by decide)).1 (by decide),
    (kernel_key_spec [0, 5, 7, 7, 3] 5 (by decide)).2 ⟨7, by decide⟩⟩

/-- C8.  `kernel` is a deterministic function of the window's contents (its
value is invariant under any permutation of the window values, so no array
layout or traversal order can change it), and the partner id it encodes is the
*smallest* id among those tying for the maximal count: `np.unique` enumerates
the distinct ids in ascending order and `np.argmax` takes the first index
attaining the maximum. -/
theorem kernel_deterministic_tie_break (w w' : List ℕ) (center : ℕ)
    (hperm : w.Perm w') (hx : ∃ b, b ∈ w ∧ b ≠ 0 ∧ b ≠ center) :
    kernel w center = kernel w' center ∧
    ∃ b, b ∈ w ∧ b ≠ 0 ∧ b ≠ center ∧
      (∀ c ∈ w, c ≠ 0 → c ≠ center → w.count c ≤ w.count b) ∧
      (∀ c ∈ w, c ≠ 0 → c ≠ center → w.count c = w.count b → b ≤ c) ∧
      kernel w center = min center b * 2 ^ 32 + max center b := by
  refine ⟨?_, kernel_partner w center hx⟩
  have hids : uniqueIds w = uniqueIds w' := by
    refine List.eq_of_perm_of_sorted ?_ (sorted_uniqueIds w) (sorted_uniqueIds w')
    exact (List.perm_insertionSort _ _).trans
      (hperm.dedup.trans (List.perm_insertionSort _ _).symm)
  have hmc : maskedCount w center = maskedCount w' center := by
    funext id
    rw [maskedCount, maskedCount, hperm.count_eq]
  rw [kernel_eq, kernel_eq, hids, hmc]

/-- C8, witness: in the window `[3, 5, 7, 3, 7]` with center 5, ids 3 and 7
tie with count 2; the key is built from the smaller tied id 3, and any
permutation of the window gives the same result. -/
theorem kernel_deterministic_tie_break_witness :
    kernel [3, 5, 7, 3, 7] 5 = kernel [7, 3, 5, 7, 3] 5 ∧
    kernel [3, 5, 7, 3, 7] 5 = min 5 3 * 2 ^ 32 + max 5 3 := by
  have h := kernel_deterministic_tie_break [3, 5, 7, 3, 7] [7, 3, 5, 7, 3] 5
    (by decide) ⟨3, by decide⟩
  exact ⟨h.1, by decide⟩

/-! Helper lemmas about `make_merge_list`. -/

lemma foldl_set_getD (r : ℕ) (comp : List ℕ) : ∀ (arr : List ℕ) (i : ℕ),
    (comp.foldl (fun a id => a.set id r) arr).getD i 0 =
      if i ∈ comp ∧ i < arr.length then r else arr.getD i 0 := by
  induction comp with
  | nil => intro arr i; simp
  | cons c cs ih =>
    intro arr i
    rw [List.foldl_cons, ih (arr.set c r) i, List.length_set]
    by_cases hmem : i ∈ cs ∧ i < arr.length
    · rw [if_pos hmem, if_pos ⟨List.mem_cons_of_mem c hmem.1, hmem.2⟩]
    · rw [if_neg hmem]
      have hset : (arr.set c r).getD i 0 =
          if c = i ∧ c < arr.length then r else arr.getD i 0 := by
        rw [List.getD_eq_getElem?_getD, List.getElem?_set,
          List.getD_eq_getElem?_getD]
        by_cases h1 : c = i
        · subst h1
          by_cases h2 : c < arr.length
          · rw [if_pos rfl, if_pos h2, if_pos ⟨rfl, h2⟩]
            rfl
          · rw [if_pos rfl, if_neg h2, if_neg (fun h => h2 h.2),
              List.getElem?_eq_none (Nat.le_of_not_lt h2)]
        · rw [if_neg h1, if_neg (fun h => h1 h.1)]
      rw [hset]
      by_cases h1 : c = i ∧ c < arr.length
      · rw [if_pos h1, if_pos ⟨h1.1 ▸ List.mem_cons_self c cs, h1.1 ▸ h1.2⟩]
      · rw [if_neg h1, if_neg ?_]
        intro ⟨hm, hl⟩
        rcases List.mem_cons.mp hm with rfl | hm'
        · exact h1 ⟨rfl, hl⟩
        · exact hmem ⟨hm', hl⟩

lemma foldl_set_length (r : ℕ) (comp : List ℕ) : ∀ arr : List ℕ,
    (comp.foldl (fun a id => a.set id r) arr).length = arr.length := by
  induction comp with
  | nil => intro arr; rfl
  | cons c cs ih => intro arr; rw [List.foldl_cons, ih, List.length_set]

lemma writeComp_length (arr comp : List ℕ) :
    (writeComp arr comp).length = arr.length := by
  match comp with
  | [] => rfl
  | c :: cs => exact foldl_set_length c (c :: cs) arr

lemma writeComp_getD_cons (arr : List ℕ) (c : ℕ) (cs : List ℕ) (i : ℕ) :
    (writeComp arr (c :: cs)).getD i 0 =
      if i ∈ c :: cs ∧ i < arr.length then c else arr.getD i 0 :=
  foldl_set_getD c (c :: cs) arr i

lemma writeComp_getD_not_mem (arr comp : List ℕ) (i : ℕ) (h : i ∉ comp) :
    (writeComp arr comp).getD i 0 = arr.getD i 0 := by
  match comp with
  | [] => rfl
  | c :: cs => rw [writeComp_getD_cons, if_neg (fun hc => h hc.1)]

lemma foldl_writeComp_length (comps : List (List ℕ)) : ∀ arr : List ℕ,
    (comps.foldl writeComp arr).length = arr.length := by
  induction comps with
  | nil => intro arr; rfl
  | cons c0 rest ih => intro arr; rw [List.foldl_cons, ih, writeComp_length]

lemma foldl_writeComp_getD_not_mem (comps : List (List ℕ)) :
    ∀ (arr : List ℕ) (i : ℕ), i ∉ comps.flatten →
      (comps.foldl writeComp arr).getD i 0 = arr.getD i 0 := by
  induction comps with
  | nil => intro arr i _; rfl
  | cons c0 rest ih =>
    intro arr i hni
    rw [List.flatten_cons] at hni
    rw [List.foldl_cons, ih _ i (fun h => hni (List.mem_append_right c0 h)),
      writeComp_getD_not_mem _ _ i (fun h => hni (List.mem_append_left _ h))]

lemma foldl_writeComp_getD_mem (comps : List (List ℕ)) :
    ∀ (arr : List ℕ) (comp : List ℕ) (i : ℕ), comps.flatten.Nodup →
      comp ∈ comps → i ∈ comp → i < arr.length →
      (comps.foldl writeComp arr).getD i 0 = comp.headI := by
  induction comps with
  | nil => intro arr comp i _ hcm _ _; exact absurd hcm (List.not_mem_nil comp)
  | cons c0 rest ih =>
    intro arr comp i hnd hcm him hlt
    rw [List.flatten_cons] at hnd
    rw [List.foldl_cons]
    rcases List.mem_cons.mp hcm with rfl | hrest
    · have hnotrest : i ∉ rest.flatten :=
        fun h => List.disjoint_of_nodup_append hnd him h
      rw [foldl_writeComp_getD_not_mem rest _ i hnotrest]
      match comp, him with
      | c :: cs, him =>
        rw [writeComp_getD_cons, if_pos ⟨him, hlt⟩]
        rfl
    · exact ih (writeComp arr c0) comp i hnd.of_append_right hrest him
        (by rw [writeComp_length]; exact hlt)

lemma make_merge_list_length (maxLabel : ℕ) (comps : List (List ℕ)) :
    (make_merge_list maxLabel comps).length = maxLabel + 1 := by
  rw [make_merge_list, foldl_writeComp_length, List.length_range]

lemma make_merge_list_getD_mem (maxLabel : ℕ) (comps : List (List ℕ))
    (comp : List ℕ) (i : ℕ) (hnd : comps.flatten.Nodup) (hcm : comp ∈ comps)
    (him : i ∈ comp) (hle : i ≤ maxLabel) :
    (make_merge_list maxLabel comps).getD i 0 = comp.headI :=
  foldl_writeComp_getD_mem comps _ comp i hnd hcm him
    (by rw [List.length_range]; omega)

lemma make_merge_list_getD_not_mem (maxLabel : ℕ) (comps : List (List ℕ))
    (i : ℕ) (h : i ∉ comps.flatten) (hle : i ≤ maxLabel) :
    (make_merge_list maxLabel comps).getD i 0 = i := by
  rw [make_merge_list, foldl_writeComp_getD_not_mem comps _ i h,
    List.getD_eq_getElem _ _ (by rw [List.length_range]; omega),
    List.getElem_range]

lemma headI_mem_of_ne_nil {comp : List ℕ} (h : comp ≠ []) : comp.headI ∈ comp := by
  match comp with
  | c :: cs => exact List.mem_cons_self c cs

/-- C1, counterexample: the canonical id chosen by `make_merge_list` is
`this_cc[0]`, the first element of the component enumeration that the
networkx/Python set iteration happens to produce — not the component minimum.
For the stitch list `[(1, 2)]` the enumeration `[[2, 1]]` is admissible
(`validEnum`), and under it id 1 is remapped to 2, not to the component
minimum 1; the enumeration `[[1, 2]]` is admissible for the same stitch list
and yields a different remap, so the remap is not a function of the edge set
alone and permutation invariance is not guaranteed either. -/
theorem make_merge_list_not_min :
    validEnum [(1, 2)] [[2, 1]] ∧
    (make_merge_list 2 [[2, 1]]).getD 1 0 = 2 ∧
    (2 : ℕ) ≠ 1 ∧
    validEnum [(1, 2)] [[1, 2]] ∧
    make_merge_list 2 [[1, 2]] ≠ make_merge_list 2 [[2, 1]] := by decide

/-- C1 (amended).  For every stitch list, admissible component enumeration and
`max_label` bounding all mentioned ids, `make_merge_list` maps every member of
a connected component to one common canonical id — the *first enumerated*
element of that component, a member of (and connected within) the component,
though not necessarily its minimum — and maps every id that appears in no
edge, including background 0 and isolated objects' ids, to itself.  The remap
is determined by the component enumeration; it is unchanged under stitch-list
permutations only insofar as the library returns the same enumeration. -/
theorem make_merge_list_components (edges : List (ℕ × ℕ)) (maxLabel : ℕ)
    (comps : List (List ℕ)) (hv : validEnum edges comps)
    (hmax : ∀ n ∈ nodesOf edges, n ≤ maxLabel) :
    (∀ comp ∈ comps, comp.headI ∈ comp ∧
      ∀ id ∈ comp, (make_merge_list maxLabel comps).getD id 0 = comp.headI ∧
        connectedB edges id comp.headI = true) ∧
    (∀ id, id ≤ maxLabel → id ∉ nodesOf edges →
      (make_merge_list maxLabel comps).getD id 0 = id) := by
  obtain ⟨hne, hnd, hsub, hsup, hconn, -⟩ := hv
  constructor
  · intro comp hcm
    have hhead : comp.headI ∈ comp := headI_mem_of_ne_nil (hne comp hcm)
    refine ⟨hhead, fun id hid => ⟨?_, hconn comp hcm id hid comp.headI hhead⟩⟩
    exact make_merge_list_getD_mem _ _ _ _ hnd hcm hid
      (hmax id (hsub id (List.mem_flatten_of_mem hcm hid)))
  · intro id hle hnid
    exact make_merge_list_getD_not_mem _ _ _ (fun h => hnid (hsub id h)) hle

/-- C1, witness: stitch list `[(1, 2)]`, max label 3, admissible enumeration
`[[2, 1]]`: both members of the component map to the enumeration head 2, while
the untouched ids 0 and 3 map to themselves. -/
theorem make_merge_list_components_witness :
    (make_merge_list 3 [[2, 1]]).getD 1 0 = 2 ∧
    (make_merge_list 3 [[2, 1]]).getD 2 0 = 2 ∧
    (make_merge_list 3 [[2, 1]]).getD 3 0 = 3 ∧
    (make_merge_list 3 [[2, 1]]).getD 0 0 = 0 := by
  have h := make_merge_list_components [(1, 2)] 3 [[2, 1]] (by decide) (by decide)
  refine ⟨?_, ?_, h.2 3 (by decide) (by decide), h.2 0 (by decide) (by decide)⟩
  · simpa using ((h.1 [2, 1] (by decide)).2 1 (by decide)).1
  · simpa using ((h.1 [2, 1] (by decide)).2 2 (by decide)).1

/-- C5.  The remap produced by `make_merge_list` from any admissible component
enumeration is idempotent on `0..max_label`, and applying the merge list a
second time to labels already remapped once changes nothing. -/
theorem make_merge_list_idempotent (edges : List (ℕ × ℕ)) (maxLabel : ℕ)
    (comps : List (List ℕ)) (hv : validEnum edges comps)
    (hmax : ∀ n ∈ nodesOf edges, n ≤ maxLabel) :
    (∀ x ≤ maxLabel,
      (make_merge_list maxLabel comps).getD
        ((make_merge_list maxLabel comps).getD x 0) 0 =
        (make_merge_list maxLabel comps).getD x 0) ∧
    (∀ labels : List ℕ, (∀ l ∈ labels, l ≤ maxLabel) →
      apply_merge_list (make_merge_list maxLabel comps)
        (apply_merge_list (make_merge_list maxLabel comps) labels) =
        apply_merge_list (make_merge_list maxLabel comps) labels) := by
  obtain ⟨hne, hnd, hsub, hsup, -, -⟩ := hv
  have hpoint : ∀ x ≤ maxLabel,
      (make_merge_list maxLabel comps).getD
        ((make_merge_list maxLabel comps).getD x 0) 0 =
        (make_merge_list maxLabel comps).getD x 0 := by
    intro x hx
    by_cases hmem : x ∈ comps.flatten
    · obtain ⟨comp, hcm, hxc⟩ := List.mem_flatten.mp hmem
      have hhead : comp.headI ∈ comp := headI_mem_of_ne_nil (hne comp hcm)
      have hhle : comp.headI ≤ maxLabel :=
        hmax _ (hsub _ (List.mem_flatten_of_mem hcm hhead))
      have hx0 : (make_merge_list maxLabel comps).getD x 0 = comp.headI :=
        make_merge_list_getD_mem _ _ _ _ hnd hcm hxc
          (hmax _ (hsub _ (List.mem_flatten_of_mem hcm hxc)))
      rw [hx0, make_merge_list_getD_mem _ _ _ _ hnd hcm hhead hhle]
    · have hx0 : (make_merge_list maxLabel comps).getD x 0 = x :=
        make_merge_list_getD_not_mem _ _ _ hmem hx
      rw [hx0, hx0]
  refine ⟨hpoint, ?_⟩
  intro labels hl
  simp only [apply_merge_list, List.map_map]
  exact List.map_congr_left fun a ha => hpoint a (hl a ha)

/-- C5, witness: the idempotence statement applied to the stitch list
`[(1, 2)]`, max label 3, enumeration `[[2, 1]]`, and the label block
`[0, 1, 2, 3]`. -/
theorem make_merge_list_idempotent_witness :
    (make_merge_list 3 [[2, 1]]).getD ((make_merge_list 3 [[2, 1]]).getD 1 0) 0 =
      (make_merge_list 3 [[2, 1]]).getD 1 0 ∧
    apply_merge_list (make_merge_list 3 [[2, 1]])
      (apply_merge_list (make_merge_list 3 [[2, 1]]) [0, 1, 2, 3]) =
      apply_merge_list (make_merge_list 3 [[2, 1]]) [0, 1, 2, 3] := by
  have h := make_merge_list_idempotent [(1, 2)] 3 [[2, 1]] (by decide) (by decide)
  exact ⟨h.1 1 (by decide), h.2 [0, 1, 2, 3] (by decide)⟩


